import Mathlib

/-!
Verification development for the packet code generator in
`src/protocol/build.rs`.  The Rust build script reads a codec alias table
(`BTreeMap<String, String>`) and a packet table
(`BTreeMap<i32, PacketDefinition>`), resolves each field's codec alias,
skips packets with unresolved aliases, groups the qualified names of the
retained packets into a module tree, and emits Rust source text (structs,
codec impls, packet metadata and a registration procedure).

The embedding below models `BTreeMap`/`BTreeSet` as sorted association
lists (iteration order = list order = ascending key order, which is the
iteration order of the Rust types), strings at the `List Char` level where
splitting is involved, and the panicking `unwrap` of the emitter as
`Option`.
-/

set_option maxHeartbeats 1000000
set_option maxRecDepth 16384

namespace ProtankiBuild

/-- Lookup in an association list by key; for a `BTreeMap` (unique keys)
this is exactly `BTreeMap::get`. Used for the codec alias table. -/
def alookup : List (String × String) → String → Option String
  | [], _ => none
  | (k, v) :: rest, key => if k = key then some v else alookup rest key

/-- `BTreeMap<String, String>::insert`: ordered insertion, replacing the
binding when the key is already present. -/
def btInsert (key val : String) : List (String × String) → List (String × String)
  | [] => [(key, val)]
  | (k, v) :: rest =>
    if key < k then (key, val) :: (k, v) :: rest
    else if key = k then (key, val) :: rest
    else (k, v) :: btInsert key val rest

/-- `BTreeSet<i32>::insert`: ordered insertion without duplicates. -/
def btsInsert (i : Int) : List Int → List Int
  | [] => [i]
  | j :: rest =>
    if i < j then i :: j :: rest
    else if i = j then j :: rest
    else j :: btsInsert i rest

/-- Model of the external `convert_case` crate's conversion
`name.from_case(Case::Camel).to_case(Case::Snake)` (build.rs line 200):
a word boundary is inserted before an uppercase letter that follows a
lowercase letter, and the result is lowercased and joined with `_`.
The crate is a third-party dependency, not part of this repository; no
claim below depends on the exact boundary rules, only on the conversion
being a fixed total function. -/
def camelSnakeGo : List Char → List Char
  | [] => []
  | a :: rest =>
    match rest with
    | [] => [a.toLower]
    | b :: _ =>
      if a.isLower && b.isUpper then a.toLower :: '_' :: camelSnakeGo rest
      else a.toLower :: camelSnakeGo rest

/-- Canonical (snake-case) form of a raw field identifier. -/
def camelToSnake (s : String) : String := ⟨camelSnakeGo s.data⟩

/-- `PacketDefinition` (build.rs lines 13-18).  `fields` models the
`BTreeMap<String, String>` as a sorted association list; list order is the
map's iteration order. -/
structure PacketDefinition where
  name : Option String
  model : Int
  fields : List (String × String)
deriving DecidableEq

/-- Field resolution for one packet (body of the loop at build.rs lines
198-207, minus the skip-set bookkeeping): fold over the packet's fields in
iteration order; a resolvable field is inserted into the fresh resolved
map under its canonical name (`BTreeMap::insert`, so a later duplicate
canonical name overwrites an earlier one), an unresolvable field appends
its codec alias to the missing list. -/
def resolveStep (codecs : List (String × String))
    (acc : List (String × String) × List String) (nc : String × String) :
    List (String × String) × List String :=
  match alookup codecs nc.2 with
  | some v => (btInsert (camelToSnake nc.1) v acc.1, acc.2)
  | none => (acc.1, acc.2 ++ [nc.2])

/-- Field resolution for one packet: fold `resolveStep` over the packet's
fields in iteration order starting from the empty map and no missing
aliases. -/
def resolveFields (codecs : List (String × String)) (fields : List (String × String)) :
    List (String × String) × List String :=
  fields.foldl (resolveStep codecs) ([], [])

/-- The diagnostic line printed at build.rs line 204. -/
def diagLine (codec : String) (id : Int) : String :=
  "cargo:warning=no type for codec " ++ codec ++ " (from packet " ++ toString id ++ ")"

/-- The whole resolver loop (build.rs lines 197-210): every packet is
processed in ascending id order; its `fields` map is replaced by the
resolved map; for every unresolvable field the packet id is inserted into
the skip set and one diagnostic line is printed.  Returns
(resolved definitions, skip set, diagnostics). -/
def resolveAllStep (codecs : List (String × String))
    (acc : List (Int × PacketDefinition) × List Int × List String)
    (idd : Int × PacketDefinition) :
    List (Int × PacketDefinition) × List Int × List String :=
  let r := resolveFields codecs idd.2.fields
  (acc.1 ++ [(idd.1, { idd.2 with fields := r.1 })],
   r.2.foldl (fun s _ => btsInsert idd.1 s) acc.2.1,
   acc.2.2 ++ r.2.map (fun c => diagLine c idd.1))

def resolveAll (codecs : List (String × String)) (defs : List (Int × PacketDefinition)) :
    List (Int × PacketDefinition) × List Int × List String :=
  defs.foldl (resolveAllStep codecs) ([], [], [])

/-- `definitions.retain(|it, _| !skipped.contains(it))` (build.rs line 213). -/
def retainDefs (defs : List (Int × PacketDefinition)) (skipped : List Int) :
    List (Int × PacketDefinition) :=
  defs.filter (fun p => !(skipped.contains p.1))

/-- Spec-side declarative form used in theorem statements: the codec
aliases of the fields whose alias is absent from the codec table, in field
iteration order. -/
def missingAliases (codecs : List (String × String)) (fields : List (String × String)) :
    List String :=
  fields.filterMap (fun nc =>
    match alookup codecs nc.2 with
    | none => some nc.2
    | some _ => none)

/-- `Module` (build.rs lines 82-87): `children` models the
`BTreeMap<String, Module>` as a sorted association list. -/
inductive Module where
  | mk (name : String) (children : List (String × Module)) (identifiers : List String)

def Module.name : Module → String
  | .mk n _ _ => n

def Module.children : Module → List (String × Module)
  | .mk _ c _ => c

def Module.identifiers : Module → List String
  | .mk _ _ i => i

/-- `Module::new` (build.rs lines 90-96). -/
def Module.new (name : String) : Module := .mk name [] []

/-- Lookup in the children map. -/
def childLookup : List (String × Module) → String → Option Module
  | [], _ => none
  | (k, c) :: rest, key => if k = key then some c else childLookup rest key

/-- `BTreeMap<String, Module>::insert`-style ordered insertion of a child,
replacing an existing child with the same key (used to model mutation of
the child returned by `entry(..).or_insert_with(..)`). -/
def childInsert (key : String) (m : Module) : List (String × Module) → List (String × Module)
  | [] => [(key, m)]
  | (k, c) :: rest =>
    if key < k then (key, m) :: (k, c) :: rest
    else if key = k then (key, m) :: rest
    else (k, c) :: childInsert key m rest

/-- Insertion of one identifier's segments into the tree (loop body of
`group_identifiers`, build.rs lines 101-116): walk the non-last segments,
skipping empty ones, fetching (or creating, `Module::new`) the child for
each segment, and push the last segment onto the reached node's
identifier list. -/
def insertParts (last : String) : List String → Module → Module
  | [], m => .mk m.name m.children (m.identifiers ++ [last])
  | p :: rest, m =>
    if p = "" then insertParts last rest m
    else
      let child := (childLookup m.children p).getD (Module.new p)
      .mk m.name (childInsert p (insertParts last rest child) m.children) m.identifiers

/-- Rust `str::split("::")` at the character-list level: leftmost,
non-overlapping occurrences of `::` separate the pieces; the result is
never empty. -/
def splitColons : List Char → List (List Char)
  | [] => [[]]
  | [c] => [[c]]
  | c1 :: c2 :: rest =>
    if c1 = ':' ∧ c2 = ':' then [] :: splitColons rest
    else
      match splitColons (c2 :: rest) with
      | [] => [[c1]]
      | p :: ps => (c1 :: p) :: ps

/-- `identifier.split("::").collect::<Vec<_>>()` (build.rs line 102). -/
def splitIdent (s : String) : List String :=
  (splitColons s.data).map (fun l => ⟨l⟩)

/-- One iteration of the `group_identifiers` loop: split the identifier
on `::`, insert the non-last segments as a path and push the last segment
(`parts.last().unwrap()`; the split result is never empty). -/
def insertIdent (m : Module) (identifier : String) : Module :=
  let parts := splitIdent identifier
  insertParts (parts.getLastD "") parts.dropLast m

/-- `Module::group_identifiers` (build.rs lines 98-119). -/
def Module.group_identifiers (root : String) (identifiers : List String) : Module :=
  identifiers.foldl insertIdent (Module.new root)

/-- Rust `str::lines` for `\n`-separated text (no carriage returns appear
in any string built by the generator): character-level split on `'\n'`. -/
def splitNl : List Char → List (List Char)
  | [] => [[]]
  | '\n' :: rest => [] :: splitNl rest
  | c :: rest =>
    match splitNl rest with
    | [] => [[c]]
    | p :: ps => (c :: p) :: ps

/-- `str::lines`: like splitting on `'\n'` but a trailing line break does
not produce a final empty line, and the empty string has no lines. -/
def rustLines (s : String) : List String :=
  let ps := (splitNl s.data).map (fun l => (⟨l⟩ : String))
  if ps.getLastD "" = "" then ps.dropLast else ps

/-- `indent` (build.rs lines 122-132): prefix every line with
`"  ".repeat(depth)` and terminate every line with `'\n'`. -/
def indent (s : String) (depth : Nat) : String :=
  String.join ((rustLines s).map (fun line => String.join (List.replicate depth "  ") ++ line ++ "\n"))

/-- `generate_struct` (build.rs lines 20-34): the `formatdoc!` template
with the field lines joined by `'\n'`. -/
def generate_struct (name : String) (fields : List (String × String)) : String :=
  "#[derive(Default, Clone, Debug)]\n" ++
  "pub struct " ++ name ++ " \x7b\n" ++
  String.intercalate "\n" (fields.map (fun nc => "  pub " ++ nc.1 ++ ": " ++ nc.2 ++ ",")) ++
  "\n\x7d\n"

/-- `generate_codec` (build.rs lines 36-65): encode delegates every field
to `registry.encode`, decode constructs a default value and delegates
every field to `registry.decode`; both iterate the same `fields` map in
the same order. -/
def generate_codec (name : String) (fields : List (String × String)) : String :=
  "#[allow(unused_variables)]\n" ++
  "#[allow(unused_mut)]\n" ++
  "impl Codec for " ++ name ++ " \x7b\n" ++
  "  type Target = Self;\n\n" ++
  "  fn encode(&self, registry: &CodecRegistry, writer: &mut dyn Write, value: &Self::Target) -> CodecResult<()> \x7b\n" ++
  String.intercalate "\n" (fields.map (fun nc => "    registry.encode(writer, &value." ++ nc.1 ++ ")?;")) ++
  "\n    Ok(())\n  \x7d\n\n" ++
  "  fn decode(&self, registry: &CodecRegistry, reader: &mut dyn Read) -> CodecResult<Self::Target> \x7b\n" ++
  "    let mut value = Self::Target::default();\n" ++
  String.intercalate "\n" (fields.map (fun nc => "    value." ++ nc.1 ++ " = registry.decode(reader)?;")) ++
  "\n    Ok(value)\n  \x7d\n\x7d\n"

/-- `generate_packet` (build.rs lines 67-80): the metadata block exposing
packet id, model id and name. -/
def generate_packet (packet_id : Int) (name : String) (model_id : Int) : String :=
  "impl Packet for " ++ name ++ " \x7b\n" ++
  "  fn as_any(&self) -> &dyn Any \x7b self \x7d\n" ++
  "  fn as_any_mut(&mut self) -> &mut dyn Any \x7b self \x7d\n\n" ++
  "  fn packet_name(&self) -> &str \x7b type_name::<Self>() \x7d\n" ++
  "  fn packet_id(&self) -> i32 \x7b " ++ toString packet_id ++ " \x7d\n" ++
  "  fn model_id(&self) -> i32 \x7b " ++ toString model_id ++ " \x7d\n" ++
  "\x7d\n"

/-- The qualified-name lookup of the emitter (build.rs line 154):
`definitions.iter().find(|(_, packet)| packet.name.as_deref() == Some(&path))`,
i.e. the first definition in map iteration order whose name is the
reconstructed path. -/
def findDef (defs : List (Int × PacketDefinition)) (path : String) :
    Option (Int × PacketDefinition) :=
  match defs with
  | [] => none
  | p :: rest => if p.2.name = some path then some p else findDef rest path

/-- Reconstruction of the fully qualified (dotted) name of a leaf
(build.rs line 153): every ancestor module name followed by a dot, then
the leaf identifier. -/
def pathName (path : List String) (identifier : String) : String :=
  String.join (path.map (fun n => n ++ ".")) ++ identifier

/-- The `packet` buffer built for a found, named definition (build.rs
lines 162-166): comment, struct, codec impl, packet impl, blank line. -/
def packetBlock (id : Int) (identifier : String) (d : PacketDefinition) (fullName : String) :
    String :=
  "/* Packet " ++ toString id ++ ": " ++ fullName ++ " */\n" ++
  generate_struct identifier d.fields ++
  generate_codec identifier d.fields ++
  generate_packet id identifier d.model ++ "\n"

/-- One iteration of the identifier loop (build.rs lines 152-169):
reconstruct the qualified name, look it up with `find`; `unwrap` of a
failed lookup is a panic, modelled as `none`.  When the found definition
has no name the placeholder comment is pushed onto the local `packet`
buffer and `continue` skips the `formatter.push_str`, so nothing reaches
the output: the contribution is the empty string.  Otherwise the packet
block is indented one level deeper and appended. -/
def emitLeaf (defs : List (Int × PacketDefinition)) (path : List String)
    (identifier : String) (depth : Nat) : Option String :=
  let p := pathName path identifier
  match findDef defs p with
  | none => none
  | some idd =>
    if idd.2.name = none then some ""
    else some (indent (packetBlock idd.1 identifier idd.2 p) (depth + 1))

/-- The identifier loop of `fmt` over a module's leaf identifiers, in
list order, concatenating the contributions; a failed lookup propagates
as `none`. -/
def fmtLeaves (defs : List (Int × PacketDefinition)) :
    List String → List String → Nat → Option String
  | [], _, _ => some ""
  | identifier :: rest, path, depth =>
    match emitLeaf defs path identifier depth with
    | none => none
    | some s =>
      match fmtLeaves defs rest path depth with
      | none => none
      | some r => some (s ++ r)

/-- The fixed text emitted at the top of every module block (build.rs
lines 141-145). -/
def moduleHeader (name : String) (depth : Nat) : String :=
  indent ("pub mod " ++ name ++ " \x7b") depth ++
  indent "use std::\x7bany::\x7bAny, type_name\x7d, io::\x7bWrite, Read\x7d\x7d;\n" (depth + 1) ++
  indent "use crate::\x7bpacket::*, codec::*\x7d;\n" (depth + 1) ++
  "\n"

mutual

/-- `fmt` (build.rs lines 134-177): module header, children in ascending
key order (each pushed onto the path for the duration of its recursive
call), then the module's own leaf identifiers against the current path,
then the closing brace.  `path` holds the names of the modules from just
below the root down to and including the current module; the root call
passes `[]`. -/
def fmtGo (defs : List (Int × PacketDefinition)) :
    Module → Nat → List String → Option String
  | .mk nm children idents, depth, path =>
    match fmtChildren defs children depth path with
    | none => none
    | some cs =>
      match fmtLeaves defs idents path depth with
      | none => none
      | some ls =>
        some (moduleHeader nm depth ++ cs ++ ls ++ indent "\x7d" depth ++ "\n")

/-- The child loop of `fmt` (build.rs lines 147-150): iterate children in
map (ascending key) order, pushing each child onto the path. -/
def fmtChildren (defs : List (Int × PacketDefinition)) :
    List (String × Module) → Nat → List String → Option String
  | [], _, _ => some ""
  | (_, c) :: rest, depth, path =>
    match fmtGo defs c (depth + 1) (path ++ [c.name]) with
    | none => none
    | some s =>
      match fmtChildren defs rest depth path with
      | none => none
      | some r => some (s ++ r)

end

/-- The fixed output header (build.rs lines 221-224). -/
def headerText : String :=
  "// This file is automatically @generated.\n" ++
  "// It is not intended for manual editing.\n\n" ++
  "#[allow(unused_imports)]\n\n"

/-- `name.replace('.', "::")` (build.rs lines 217 and 236). -/
def replaceDots (s : String) : String :=
  ⟨(s.data.map (fun c => if c = '.' then [':', ':'] else [c])).flatten⟩

/-- One registration statement (build.rs lines 234-237). -/
def regStatement (name : String) : String :=
  "    registry.register_packet::<super::packets::" ++ replaceDots name ++
  ">(Default::default());\n"

/-- The registration loop (build.rs lines 232-239): iterate the retained
definitions in ascending id order and emit one statement per definition
that has a name. -/
def regStep (acc : List String) (p : Int × PacketDefinition) : List String :=
  match p.2.name with
  | some n => acc ++ [regStatement n]
  | none => acc

def regLines (defs : List (Int × PacketDefinition)) : List String :=
  defs.foldl regStep []

/-- The `internal` module wrapping the registration procedure (build.rs
lines 229-241). -/
def registrationText (defs : List (Int × PacketDefinition)) : String :=
  "pub(super) mod internal \x7b\n" ++
  "  use crate::packet::PacketRegistry;\n\n" ++
  "  pub fn register_packets(registry: &mut PacketRegistry) \x7b\n" ++
  String.join (regLines defs) ++
  "  \x7d\n\x7d\n"

/-- The whole generation pipeline of `main` (build.rs lines 186-245),
excluding the file IO: resolve fields, drop skipped packets, group the
retained packets' qualified names (dots replaced by `::`) into the module
tree rooted at `packets`, emit the tree, append the registration
procedure.  A panic of the emitter's `unwrap` is `none`. -/
def generate (codecs : List (String × String)) (defs : List (Int × PacketDefinition)) :
    Option String :=
  let r := resolveAll codecs defs
  let retained := retainDefs r.1 r.2.1
  let names := (retained.filterMap (fun p => p.2.name)).map replaceDots
  let root := Module.group_identifiers "packets" names
  match fmtGo retained root 0 [] with
  | none => none
  | some body => some (headerText ++ body ++ registrationText retained)

/-- `String.intercalate "::"` at the segment level: spec-side join used
to state the reconstruction invariant of the namespace tree. -/
def joinColons : List (List Char) → List Char
  | [] => []
  | [p] => p
  | p :: q :: ps => p ++ ':' :: ':' :: joinColons (q :: ps)

/-- Join qualified-name segments with `::`. -/
def qualJoin (segs : List String) : String :=
  ⟨joinColons (segs.map String.data)⟩

mutual

/-- Spec-side observation of the namespace tree: the qualified name
(ancestor path below the root, joined with `::`) of every leaf
identifier, children first, in tree order. -/
def leafQualsGo : Module → List String → List String
  | .mk _ children idents, path =>
    leafQualsChildren children path ++ idents.map (fun i => qualJoin (path ++ [i]))

def leafQualsChildren : List (String × Module) → List String → List String
  | [], _ => []
  | (k, c) :: rest, path => leafQualsGo c (path ++ [k]) ++ leafQualsChildren rest path

end

/-- All reconstructed leaf qualified names of a tree, relative to the
root (the root's own name is not part of any qualified name). -/
def leafQualNames (m : Module) : List String := leafQualsGo m []

/-- Strictly ascending child keys of one node. -/
def keysChain : List (String × Module) → Bool
  | [] => true
  | [_] => true
  | (k1, _) :: (k2, c2) :: rest =>
    decide (k1 < k2) && keysChain ((k2, c2) :: rest)

mutual

/-- Every node of the tree has its children keyed in strictly ascending
order (so enumeration order is deterministic and duplicate-free). -/
def Module.sortedKeys : Module → Bool
  | .mk _ children _ => keysChain children && childrenAllSorted children

def childrenAllSorted : List (String × Module) → Bool
  | [] => true
  | (_, c) :: rest => Module.sortedKeys c && childrenAllSorted rest

end

/-- Modelled from the spec: the shared, type-erased codec registry
(`crate::codec`, an external collaborator of the generator — its code is
not under `src/`).  Field values are represented abstractly as naturals
and the wire as a list of naturals; `encF d v` encodes a value `v` of the
field type named by descriptor `d`, and `decF d` consumes the bytes of
one value of type `d` from the front of the input, returning the value
and remaining input. -/
structure CodecRegistry where
  encF : String → Nat → List Nat
  decF : String → List Nat → Option (Nat × List Nat)

/-- Semantics of the encode procedure emitted by `generate_codec`: the
body delegates each field, in the struct's field order, to
`registry.encode`, which appends that field's bytes to the writer. -/
def encodeFields (r : CodecRegistry) : List (String × Nat) → List Nat
  | [] => []
  | (d, v) :: rest => r.encF d v ++ encodeFields r rest

/-- Semantics of the decode procedure emitted by `generate_codec`: the
body starts from a default value and assigns each field, in the same
field order as the encode procedure (both iterate the same `fields`
map), from `registry.decode`, propagating the first failure. -/
def decodeFields (r : CodecRegistry) : List String → List Nat → Option (List Nat × List Nat)
  | [], bytes => some ([], bytes)
  | d :: rest, bytes =>
    match r.decF d bytes with
    | none => none
    | some (v, bytes') =>
      match decodeFields r rest bytes' with
      | none => none
      | some (vs, b) => some (v :: vs, b)

/-- Spec-side form of the qualified name reconstructed for the leaf that
inserting one identifier creates: the non-empty non-last segments, then
the last segment, joined with the separator. -/
def reconName (n : String) : String :=
  qualJoin ((splitIdent n).dropLast.filter (fun s => s != "") ++ [(splitIdent n).getLastD ""])


mutual

/-- Spec-side observation mirroring the reconstruction the emitter
performs: the dotted qualified name (`pathName`) of every leaf identifier
of the tree, children first, in the order `fmt` visits them. -/
def leafDotsGo : Module → List String → List String
  | .mk _ children idents, path =>
    leafDotsChildren children path ++ idents.map (fun i => pathName path i)

def leafDotsChildren : List (String × Module) → List String → List String
  | [], _ => []
  | (_, c) :: rest, path => leafDotsGo c (path ++ [c.name]) ++ leafDotsChildren rest path

end

/-- The id-to-name pairs of the named definitions, in iteration order
(spec-side observation used to state the registration claims). -/
def namedEntries (defs : List (Int × PacketDefinition)) : List (Int × String) :=
  defs.filterMap (fun p => p.2.name.map (fun n => (p.1, n)))

/-- Concrete input with two definitions sharing the qualified name
`a`: the emission lookup for the leaf `a` is ambiguous. -/
def defsDup : List (Int × PacketDefinition) :=
  [(1, { name := some "a", model := 0, fields := [] }),
   (2, { name := some "a", model := 0, fields := [] })]

/-- Concrete input with a single nameless definition. -/
def defsC7 : List (Int × PacketDefinition) :=
  [(1, { name := none, model := 5, fields := [] })]

/-- Concrete input: packet 1 resolves, packet 2 uses an unknown codec
alias. -/
def defsC5 : List (Int × PacketDefinition) :=
  [(1, { name := some "foo.bar", model := 7, fields := [("objectId", "i32")] }),
   (2, { name := some "x.y", model := 3, fields := [("val", "weird")] })]

/-- Concrete input: a named and a nameless definition. -/
def defsC6 : List (Int × PacketDefinition) :=
  [(1, { name := some "a", model := 0, fields := [] }),
   (2, { name := none, model := 1, fields := [] })]

/-! ### Lemmas about the map and set models -/

theorem alookup_cons (ak av key : String) (rest : List (String × String)) :
    alookup ((ak, av) :: rest) key = if ak = key then some av else alookup rest key := rfl

theorem btInsert_cons (k v ak av : String) (rest : List (String × String)) :
    btInsert k v ((ak, av) :: rest)
      = if k < ak then (k, v) :: (ak, av) :: rest
        else if k = ak then (k, v) :: rest
        else (ak, av) :: btInsert k v rest := rfl

theorem alookup_btInsert (k v key : String) :
    ∀ m, alookup (btInsert k v m) key = if key = k then some v else alookup m key := by
  intro m
  induction m with
  | nil =>
    by_cases h : key = k
    · simp [btInsert, alookup_cons, alookup, h]
    · simp [btInsert, alookup_cons, alookup, h, Ne.symm h]
  | cons a rest ih =>
    obtain ⟨ak, av⟩ := a
    rw [btInsert_cons]
    rcases lt_trichotomy k ak with h1 | h1 | h1
    · rw [if_pos h1, alookup_cons, alookup_cons]
      by_cases h : key = k
      · rw [if_pos h.symm, if_pos h]
      · rw [if_neg (fun hk => h hk.symm), if_neg h]
    · subst h1
      rw [if_neg (lt_irrefl k), if_pos rfl, alookup_cons, alookup_cons]
      by_cases h : key = k
      · rw [if_pos h.symm, if_pos h]
      · rw [if_neg (fun hk => h hk.symm), if_neg h, if_neg (fun hk => h hk.symm)]
    · have hne : k ≠ ak := ne_of_gt h1
      have hlt : ¬ k < ak := not_lt.mpr (le_of_lt h1)
      rw [if_neg hlt, if_neg hne, alookup_cons, alookup_cons]
      by_cases h2 : ak = key
      · have hkey : ¬ key = k := fun hk => hne ((hk ▸ h2 : ak = k)).symm
        rw [if_pos h2, if_pos h2, if_neg hkey]
      · rw [if_neg h2, if_neg h2, ih]

theorem mem_btInsert (x : String × String) (k v : String) :
    ∀ m, x ∈ btInsert k v m → x = (k, v) ∨ x ∈ m := by
  intro m
  induction m with
  | nil => intro h; simpa [btInsert] using h
  | cons a rest ih =>
    obtain ⟨ak, av⟩ := a
    rw [btInsert_cons]
    intro h
    by_cases h1 : k < ak
    · rw [if_pos h1] at h
      rcases List.mem_cons.mp h with h | h
      · exact Or.inl h
      · exact Or.inr h
    · rw [if_neg h1] at h
      by_cases h2 : k = ak
      · rw [if_pos h2] at h
        rcases List.mem_cons.mp h with h | h
        · exact Or.inl h
        · exact Or.inr (List.mem_cons_of_mem _ h)
      · rw [if_neg h2] at h
        rcases List.mem_cons.mp h with h | h
        · exact Or.inr (h ▸ List.mem_cons_self _ _)
        · rcases ih h with h | h
          · exact Or.inl h
          · exact Or.inr (List.mem_cons_of_mem _ h)

theorem btInsert_pairwise (k v : String) :
    ∀ m, m.Pairwise (fun a b : String × String => a.1 < b.1) →
      (btInsert k v m).Pairwise (fun a b : String × String => a.1 < b.1) := by
  intro m
  induction m with
  | nil => intro _; simp [btInsert]
  | cons a rest ih =>
    obtain ⟨ak, av⟩ := a
    intro hp
    rw [List.pairwise_cons] at hp
    obtain ⟨ha, hrest⟩ := hp
    rw [btInsert_cons]
    by_cases h1 : k < ak
    · rw [if_pos h1]
      refine List.Pairwise.cons ?_ (List.Pairwise.cons ha hrest)
      intro x hx
      rcases List.mem_cons.mp hx with h | h
      · rw [h]; exact h1
      · exact lt_trans h1 (ha x h)
    · rw [if_neg h1]
      by_cases h2 : k = ak
      · rw [if_pos h2]
        refine List.Pairwise.cons ?_ hrest
        intro x hx
        have := ha x hx
        rw [h2]
        exact this
      · rw [if_neg h2]
        have h3 : ak < k := lt_of_le_of_ne (not_lt.mp h1) (Ne.symm h2)
        refine List.Pairwise.cons ?_ (ih hrest)
        intro x hx
        rcases mem_btInsert x k v rest hx with h | h
        · rw [h]; exact h3
        · exact ha x h

theorem mem_btsInsert (a i : Int) : ∀ s, a ∈ btsInsert i s ↔ a = i ∨ a ∈ s := by
  intro s
  induction s with
  | nil => simp [btsInsert]
  | cons j rest ih =>
    by_cases h1 : i < j
    · simp [btsInsert, h1]
    · by_cases h2 : i = j
      · subst h2
        simp only [btsInsert, if_neg h1, if_pos rfl]
        constructor
        · intro h; exact Or.inr h
        · intro h; rcases h with h | h
          · simp [h]
          · exact h
      · simp only [btsInsert, if_neg h1, if_neg h2, List.mem_cons, ih]
        tauto

theorem mem_foldl_btsInsert (a i : Int) :
    ∀ (miss : List String) (s : List Int),
      a ∈ miss.foldl (fun s _ => btsInsert i s) s ↔ (miss ≠ [] ∧ a = i) ∨ a ∈ s := by
  intro miss
  induction miss with
  | nil => intro s; simp
  | cons c ms ih =>
    intro s
    simp only [List.foldl_cons, ih, mem_btsInsert]
    rcases ms with _ | ⟨m, ms⟩ <;> tauto

/-! ### Characterization of the field resolver (claim C1) -/

theorem resolveFields_go_snd (codecs : List (String × String)) :
    ∀ (fields : List (String × String)) (m0 : List (String × String)) (miss0 : List String),
      (fields.foldl (resolveStep codecs) (m0, miss0)).2 = miss0 ++ missingAliases codecs fields := by
  intro fields
  induction fields with
  | nil => intro m0 miss0; simp [missingAliases]
  | cons nc rest ih =>
    intro m0 miss0
    cases h : alookup codecs nc.2 with
    | some v =>
      rw [List.foldl_cons, resolveStep, h, ih]
      rw [missingAliases, missingAliases, List.filterMap_cons]
      simp [h]
    | none =>
      rw [List.foldl_cons, resolveStep, h, ih]
      rw [missingAliases, missingAliases, List.filterMap_cons]
      simp [h]

theorem resolveFields_snd (codecs fields : List (String × String)) :
    (resolveFields codecs fields).2 = missingAliases codecs fields := by
  simpa using resolveFields_go_snd codecs fields [] []

theorem resolveAll_go_ids (codecs : List (String × String)) :
    ∀ (defs : List (Int × PacketDefinition)) acc,
      ((defs.foldl (resolveAllStep codecs) acc).1).map (fun p => p.1)
        = acc.1.map (fun p => p.1) ++ defs.map (fun p => p.1) := by
  intro defs
  induction defs with
  | nil => intro acc; simp
  | cons idd rest ih =>
    intro acc
    simp [List.foldl_cons, ih, resolveAllStep]

theorem resolveAll_go_diags (codecs : List (String × String)) :
    ∀ (defs : List (Int × PacketDefinition)) acc,
      (defs.foldl (resolveAllStep codecs) acc).2.2
        = acc.2.2 ++ defs.flatMap
            (fun idd => (missingAliases codecs idd.2.fields).map (fun c => diagLine c idd.1)) := by
  intro defs
  induction defs with
  | nil => intro acc; simp
  | cons idd rest ih =>
    intro acc
    simp [List.foldl_cons, ih, resolveAllStep, resolveFields_snd]

theorem resolveAll_go_skip (codecs : List (String × String)) (a : Int) :
    ∀ (defs : List (Int × PacketDefinition)) acc,
      a ∈ (defs.foldl (resolveAllStep codecs) acc).2.1
        ↔ a ∈ acc.2.1 ∨ ∃ d, (a, d) ∈ defs ∧ missingAliases codecs d.fields ≠ [] := by
  intro defs
  induction defs with
  | nil => intro acc; simp
  | cons idd rest ih =>
    intro acc
    obtain ⟨i, d0⟩ := idd
    simp only [List.foldl_cons, ih, resolveAllStep, resolveFields_snd, mem_foldl_btsInsert,
      List.mem_cons, Prod.mk.injEq]
    constructor
    · rintro ((⟨hne, rfl⟩ | h) | ⟨d, hd, hm⟩)
      · exact Or.inr ⟨d0, Or.inl ⟨rfl, rfl⟩, hne⟩
      · exact Or.inl h
      · exact Or.inr ⟨d, Or.inr hd, hm⟩
    · rintro (h | ⟨d, (⟨rfl, rfl⟩ | hd), hm⟩)
      · exact Or.inl (Or.inr h)
      · exact Or.inl (Or.inl ⟨hm, rfl⟩)
      · exact Or.inr ⟨d, hd, hm⟩

theorem missingAliases_ne_nil (codecs fields : List (String × String)) :
    missingAliases codecs fields ≠ [] ↔ ∃ nc ∈ fields, alookup codecs nc.2 = none := by
  rw [Ne, missingAliases, List.filterMap_eq_nil_iff]
  constructor
  · intro h
    by_contra hc
    push_neg at hc
    refine h ?_
    intro nc hm
    cases ha : alookup codecs nc.2 with
    | none => exact absurd ha (hc nc hm)
    | some v => simp [ha]
  · rintro ⟨nc, hm, ha⟩ hall
    have := hall nc hm
    simp [ha] at this

/-- C1: for every packet with a field whose codec alias is missing from
the codec table, the resolver does not abort: every packet id survives
resolution (third conjunct: the id list of the resolved output is the
input id list), the owning packet's id is in the skip set exactly when it
has at least one unresolved field, and the diagnostics are exactly one
line per unresolved field occurrence, in order, each line containing the
unresolved alias and the originating packet id. -/
theorem resolver_skips_and_diagnoses (codecs : List (String × String))
    (defs : List (Int × PacketDefinition)) :
    (resolveAll codecs defs).2.2
        = defs.flatMap
            (fun idd => (missingAliases codecs idd.2.fields).map (fun c => diagLine c idd.1))
    ∧ ((resolveAll codecs defs).1).map (fun p => p.1) = defs.map (fun p => p.1)
    ∧ (∀ id, id ∈ (resolveAll codecs defs).2.1
          ↔ ∃ d, (id, d) ∈ defs ∧ ∃ nc ∈ d.fields, alookup codecs nc.2 = none)
    ∧ (∀ c id, c.data <:+: (diagLine c id).data ∧ (toString id).data <:+: (diagLine c id).data) := by
  refine ⟨?_, ?_, ?_, ?_⟩
  · simpa using resolveAll_go_diags codecs defs ([], [], [])
  · simpa using resolveAll_go_ids codecs defs ([], [], [])
  · intro id
    rw [resolveAll, resolveAll_go_skip codecs id defs ([], [], [])]
    simp only [List.not_mem_nil, false_or]
    constructor
    · rintro ⟨d, hd, hm⟩
      exact ⟨d, hd, (missingAliases_ne_nil codecs d.fields).mp hm⟩
    · rintro ⟨d, hd, hm⟩
      exact ⟨d, hd, (missingAliases_ne_nil codecs d.fields).mpr hm⟩
  · intro c id
    constructor
    · exact ⟨"cargo:warning=no type for codec ".data,
        (" (from packet " ++ toString id ++ ")").data,
        by simp [diagLine, String.data_append]⟩
    · exact ⟨("cargo:warning=no type for codec " ++ c ++ " (from packet ").data,
        ")".data, by simp [diagLine, String.data_append]⟩

/-! ### Characterization of the resolved field map (claim C8) -/

theorem resolveFields_go_fst_lookup (codecs : List (String × String)) (key : String) :
    ∀ (l : List (String × String)) (m0 : List (String × String)) (miss0 : List String),
      alookup (l.foldl (resolveStep codecs) (m0, miss0)).1 key
        = match (l.filterMap
              (fun nc => if camelToSnake nc.1 = key then alookup codecs nc.2 else none)).getLast? with
          | some v => some v
          | none => alookup m0 key := by
  intro l
  induction l with
  | nil => intro m0 miss0; simp
  | cons nc rest ih =>
    intro m0 miss0
    rw [List.foldl_cons]
    cases h : alookup codecs nc.2 with
    | none =>
      simp only [resolveStep, h, List.filterMap_cons, ite_self]
      exact ih m0 (miss0 ++ [nc.2])
    | some v =>
      simp only [resolveStep, h, List.filterMap_cons]
      by_cases hk : camelToSnake nc.1 = key
      · rw [if_pos hk, ih, List.getLast?_cons]
        cases hg : (rest.filterMap
            (fun nc => if camelToSnake nc.1 = key then alookup codecs nc.2 else none)).getLast? with
        | some w => simp [hg]
        | none => simp [hg, alookup_btInsert, hk]
      · rw [if_neg hk, ih]
        cases hg : (rest.filterMap
            (fun nc => if camelToSnake nc.1 = key then alookup codecs nc.2 else none)).getLast? with
        | some w => simp [hg]
        | none =>
          simp only [hg, alookup_btInsert]
          rw [if_neg (fun hkk => hk hkk.symm)]

theorem resolveFields_go_pairwise (codecs : List (String × String)) :
    ∀ (l : List (String × String)) (m0 : List (String × String)) (miss0 : List String),
      m0.Pairwise (fun a b : String × String => a.1 < b.1) →
      ((l.foldl (resolveStep codecs) (m0, miss0)).1).Pairwise
        (fun a b : String × String => a.1 < b.1) := by
  intro l
  induction l with
  | nil => intro m0 miss0 h; exact h
  | cons nc rest ih =>
    intro m0 miss0 h
    rw [List.foldl_cons]
    cases ha : alookup codecs nc.2 with
    | none => simp only [resolveStep, ha]; exact ih m0 _ h
    | some v => simp only [resolveStep, ha]; exact ih _ _ (btInsert_pairwise _ _ _ h)

/-- C8: looking up any canonical name in the resolved field map returns
the descriptor of the last field (in iteration order) whose canonical
name is that key and whose alias resolves — on a duplicate canonical name
the later entry silently overwrites the earlier, no error is raised — and
the resolved map holds at most one entry per canonical name. -/
theorem duplicate_canonical_last_wins (codecs fields : List (String × String)) (key : String) :
    alookup (resolveFields codecs fields).1 key
      = (fields.filterMap
          (fun nc => if camelToSnake nc.1 = key then alookup codecs nc.2 else none)).getLast?
    ∧ ((resolveFields codecs fields).1.map (fun p => p.1)).Nodup := by
  constructor
  · rw [resolveFields, resolveFields_go_fst_lookup]
    cases (fields.filterMap
        (fun nc => if camelToSnake nc.1 = key then alookup codecs nc.2 else none)).getLast? with
    | some v => rfl
    | none => rfl
  · have hp := resolveFields_go_pairwise codecs fields [] [] (List.Pairwise.nil)
    rw [resolveFields]
    exact (List.pairwise_map.mpr (hp.imp fun h => ne_of_lt h))

/-! ### The encode/decode round trip (claim C10) -/

/-- C10: if every field codec of the registry round-trips (decoding the
encoding of a value from the front of any stream yields the value and the
untouched remainder), then the generated packet codec round-trips: the
decode procedure applied to the encode procedure's output returns a
structurally equal field-value sequence, for every field list. -/
theorem roundtrip_encode_decode (r : CodecRegistry)
    (hrt : ∀ d v rest, r.decF d (r.encF d v ++ rest) = some (v, rest))
    (fields : List (String × Nat)) (rest : List Nat) :
    decodeFields r (fields.map (fun p => p.1)) (encodeFields r fields ++ rest)
      = some (fields.map (fun p => p.2), rest) := by
  induction fields generalizing rest with
  | nil => simp [encodeFields, decodeFields]
  | cons dv fs ih =>
    obtain ⟨d, v⟩ := dv
    rw [List.map_cons, encodeFields, List.append_assoc]
    rw [decodeFields]
    rw [hrt d v (encodeFields r fs ++ rest)]
    simp only [ih rest, List.map_cons]

/-- Witness for C10 at a concrete registry (every value encoded as a
single byte) and a concrete two-field packet. -/
theorem roundtrip_encode_decode_witness :
    decodeFields ⟨fun _ v => [v], fun _ b => match b with | [] => none | x :: xs => some (x, xs)⟩
        ([("i32", 7), ("String", 42)].map (fun p => p.1))
        (encodeFields ⟨fun _ v => [v], fun _ b => match b with | [] => none | x :: xs => some (x, xs)⟩
          [("i32", 7), ("String", 42)] ++ [99])
      = some ([("i32", 7), ("String", 42)].map (fun p => p.2), [99]) :=
  roundtrip_encode_decode
    ⟨fun _ v => [v], fun _ b => match b with | [] => none | x :: xs => some (x, xs)⟩
    (fun _ _ _ => rfl) [("i32", 7), ("String", 42)] [99]

/-! ### Sortedness of the namespace tree (claims C2 and C4) -/

theorem keysChain_iff_pairwise :
    ∀ ch : List (String × Module),
      keysChain ch = true ↔ ch.Pairwise (fun a b : String × Module => a.1 < b.1) := by
  intro ch
  match ch with
  | [] => simp [keysChain]
  | [x] => simp [keysChain]
  | (k1, c1) :: (k2, c2) :: rest =>
    rw [keysChain, Bool.and_eq_true, decide_eq_true_iff,
      keysChain_iff_pairwise ((k2, c2) :: rest)]
    constructor
    · rintro ⟨h12, hp⟩
      rw [List.pairwise_cons] at hp ⊢
      obtain ⟨hhead, htail⟩ := hp
      refine ⟨?_, List.Pairwise.cons hhead htail⟩
      intro q hq
      rcases List.mem_cons.mp hq with h | h
      · rw [h]; exact h12
      · exact lt_trans h12 (hhead q h)
    · intro hp
      rw [List.pairwise_cons] at hp
      obtain ⟨hhead, htail⟩ := hp
      exact ⟨hhead (k2, c2) (List.mem_cons_self _ _), htail⟩

theorem childrenAllSorted_iff :
    ∀ ch : List (String × Module),
      childrenAllSorted ch = true ↔ ∀ kc ∈ ch, Module.sortedKeys kc.2 = true := by
  intro ch
  induction ch with
  | nil => simp [childrenAllSorted]
  | cons kc rest ih =>
    obtain ⟨k, c⟩ := kc
    rw [childrenAllSorted, Bool.and_eq_true, ih]
    constructor
    · rintro ⟨h1, h2⟩ q hq
      rcases List.mem_cons.mp hq with h | h
      · rw [h]; exact h1
      · exact h2 q h
    · intro h
      exact ⟨h (k, c) (List.mem_cons_self _ _), fun q hq => h q (List.mem_cons_of_mem _ hq)⟩

theorem sortedKeys_mk (n : String) (ch : List (String × Module)) (ids : List String) :
    Module.sortedKeys (.mk n ch ids) = (keysChain ch && childrenAllSorted ch) := rfl

theorem childLookup_mem (p : String) (c : Module) :
    ∀ ch, childLookup ch p = some c → (p, c) ∈ ch := by
  intro ch
  induction ch with
  | nil => intro h; simp [childLookup] at h
  | cons kc rest ih =>
    obtain ⟨k, c0⟩ := kc
    intro h
    rw [childLookup] at h
    by_cases hk : k = p
    · rw [if_pos hk] at h
      rw [Option.some.injEq] at h
      exact List.mem_cons.mpr (Or.inl (by rw [hk, h]))
    · rw [if_neg hk] at h
      exact List.mem_cons_of_mem _ (ih h)

theorem mem_childInsert (x : String × Module) (k : String) (m : Module) :
    ∀ ch, x ∈ childInsert k m ch → x = (k, m) ∨ x ∈ ch := by
  intro ch
  induction ch with
  | nil => intro h; simpa [childInsert] using h
  | cons kc rest ih =>
    obtain ⟨ak, ac⟩ := kc
    rw [childInsert]
    intro h
    by_cases h1 : k < ak
    · rw [if_pos h1] at h
      rcases List.mem_cons.mp h with h | h
      · exact Or.inl h
      · exact Or.inr h
    · rw [if_neg h1] at h
      by_cases h2 : k = ak
      · rw [if_pos h2] at h
        rcases List.mem_cons.mp h with h | h
        · exact Or.inl h
        · exact Or.inr (List.mem_cons_of_mem _ h)
      · rw [if_neg h2] at h
        rcases List.mem_cons.mp h with h | h
        · exact Or.inr (h ▸ List.mem_cons_self _ _)
        · rcases ih h with h | h
          · exact Or.inl h
          · exact Or.inr (List.mem_cons_of_mem _ h)

theorem childInsert_pairwise (k : String) (m : Module) :
    ∀ ch, ch.Pairwise (fun a b : String × Module => a.1 < b.1) →
      (childInsert k m ch).Pairwise (fun a b : String × Module => a.1 < b.1) := by
  intro ch
  induction ch with
  | nil => intro _; simp [childInsert]
  | cons kc rest ih =>
    obtain ⟨ak, ac⟩ := kc
    intro hp
    rw [List.pairwise_cons] at hp
    obtain ⟨ha, hrest⟩ := hp
    rw [childInsert]
    by_cases h1 : k < ak
    · rw [if_pos h1]
      refine List.Pairwise.cons ?_ (List.Pairwise.cons ha hrest)
      intro x hx
      rcases List.mem_cons.mp hx with h | h
      · rw [h]; exact h1
      · exact lt_trans h1 (ha x h)
    · rw [if_neg h1]
      by_cases h2 : k = ak
      · rw [if_pos h2]
        refine List.Pairwise.cons ?_ hrest
        intro x hx
        have := ha x hx
        rw [h2]
        exact this
      · rw [if_neg h2]
        have h3 : ak < k := lt_of_le_of_ne (not_lt.mp h1) (Ne.symm h2)
        refine List.Pairwise.cons ?_ (ih hrest)
        intro x hx
        rcases mem_childInsert x k m rest hx with h | h
        · rw [h]; exact h3
        · exact ha x h

theorem childInsert_allSorted (k : String) (m : Module) (hm : m.sortedKeys = true) :
    ∀ ch, childrenAllSorted ch = true → childrenAllSorted (childInsert k m ch) = true := by
  intro ch hch
  rw [childrenAllSorted_iff] at hch ⊢
  intro kc hkc
  rcases mem_childInsert kc k m ch hkc with h | h
  · rw [h]; exact hm
  · exact hch kc h

theorem new_sortedKeys (n : String) : (Module.new n).sortedKeys = true := rfl

theorem insertParts_sortedKeys (last : String) :
    ∀ (init : List String) (m : Module),
      m.sortedKeys = true → (insertParts last init m).sortedKeys = true := by
  intro init
  induction init with
  | nil =>
    intro m hm
    obtain ⟨n, ch, ids⟩ := m
    exact hm
  | cons p rest ih =>
    intro m hm
    obtain ⟨n, ch, ids⟩ := m
    rw [insertParts]
    by_cases hp : p = ""
    · rw [if_pos hp]
      exact ih _ hm
    · rw [if_neg hp]
      rw [sortedKeys_mk, Bool.and_eq_true] at hm
      obtain ⟨hchain, hall⟩ := hm
      have hchild : ((childLookup (Module.children (.mk n ch ids)) p).getD (Module.new p)).sortedKeys = true := by
        cases hl : childLookup (Module.children (.mk n ch ids)) p with
        | none => exact new_sortedKeys p
        | some c =>
          rw [Option.getD_some]
          exact (childrenAllSorted_iff ch).mp hall (p, c) (childLookup_mem p c ch hl)
      rw [sortedKeys_mk, Bool.and_eq_true]
      constructor
      · rw [keysChain_iff_pairwise]
        exact childInsert_pairwise p _ ch ((keysChain_iff_pairwise ch).mp hchain)
      · exact childInsert_allSorted p _ (ih _ hchild) ch hall

theorem insertIdent_sortedKeys (m : Module) (identifier : String)
    (hm : m.sortedKeys = true) : (insertIdent m identifier).sortedKeys = true :=
  insertParts_sortedKeys _ _ m hm

theorem foldl_insertIdent_sortedKeys :
    ∀ (ids : List String) (m : Module), m.sortedKeys = true →
      (ids.foldl insertIdent m).sortedKeys = true := by
  intro ids
  induction ids with
  | nil => intro m hm; exact hm
  | cons i rest ih =>
    intro m hm
    rw [List.foldl_cons]
    exact ih _ (insertIdent_sortedKeys m i hm)

theorem group_identifiers_sortedKeys (root : String) (ids : List String) :
    (Module.group_identifiers root ids).sortedKeys = true :=
  foldl_insertIdent_sortedKeys ids (Module.new root) (new_sortedKeys root)

/-- C2: generation is a pure, deterministic function of the two input
tables — running it twice on the same codec table and packet table gives
syntactically identical output — and every namespace node built by the
pipeline enumerates its children in strictly ascending (hence
deterministic and reproducible) key order. -/
theorem generation_deterministic (codecs : List (String × String))
    (defs : List (Int × PacketDefinition)) :
    generate codecs defs = generate codecs defs
    ∧ ∀ (root : String) (ids : List String),
        (Module.group_identifiers root ids).sortedKeys = true :=
  ⟨rfl, fun root ids => group_identifiers_sortedKeys root ids⟩

/-! ### Reconstruction of qualified names from the tree (claim C4) -/

theorem splitColons_ne_nil : ∀ l : List Char, splitColons l ≠ [] := by
  intro l
  induction l using splitColons.induct with
  | case1 => simp [splitColons]
  | case2 c => simp [splitColons]
  | case3 c1 c2 rest hsep ih => simp [splitColons, hsep]
  | case4 c1 c2 rest hn hx ih => simp [splitColons, hn, hx]
  | case5 c1 c2 rest hn p ps hx ih => simp [splitColons, hn, hx]

theorem joinColons_splitColons : ∀ l : List Char, joinColons (splitColons l) = l := by
  intro l
  induction l using splitColons.induct with
  | case1 => rfl
  | case2 c => rfl
  | case3 c1 c2 rest hsep ih =>
    obtain ⟨h1, h2⟩ := hsep
    subst h1
    subst h2
    rw [splitColons, if_pos ⟨rfl, rfl⟩]
    cases hs : splitColons rest with
    | nil => exact absurd hs (splitColons_ne_nil rest)
    | cons p ps =>
      rw [hs] at ih
      rw [joinColons]
      simpa using ih
  | case4 c1 c2 rest hn hx ih =>
    exact absurd hx (splitColons_ne_nil _)
  | case5 c1 c2 rest hn p ps hx ih =>
    rw [splitColons, if_neg hn, hx]
    rw [hx] at ih
    cases ps with
    | nil =>
      rw [joinColons] at ih ⊢
      rw [ih]
    | cons y ys =>
      rw [joinColons] at ih ⊢
      rw [List.cons_append, ih]

theorem leafQualsGo_mk (n : String) (ch : List (String × Module)) (ids : List String)
    (path : List String) :
    leafQualsGo (.mk n ch ids) path
      = leafQualsChildren ch path ++ ids.map (fun i => qualJoin (path ++ [i])) := rfl

theorem leafQualsChildren_cons (k : String) (c : Module) (rest : List (String × Module))
    (path : List String) :
    leafQualsChildren ((k, c) :: rest) path
      = leafQualsGo c (path ++ [k]) ++ leafQualsChildren rest path := rfl

theorem leafQualsChildren_append (path : List String) :
    ∀ l1 l2 : List (String × Module),
      leafQualsChildren (l1 ++ l2) path = leafQualsChildren l1 path ++ leafQualsChildren l2 path := by
  intro l1
  induction l1 with
  | nil => intro l2; rfl
  | cons kc rest ih =>
    intro l2
    obtain ⟨k, c⟩ := kc
    rw [List.cons_append, leafQualsChildren_cons, leafQualsChildren_cons, ih, List.append_assoc]

theorem childLookup_eq_none (p : String) :
    ∀ ch : List (String × Module), (∀ q ∈ ch, q.1 ≠ p) → childLookup ch p = none := by
  intro ch
  induction ch with
  | nil => intro _; rfl
  | cons kc rest ih =>
    obtain ⟨k, c⟩ := kc
    intro h
    rw [childLookup, if_neg (h (k, c) (List.mem_cons_self _ _)), ih]
    intro q hq
    exact h q (List.mem_cons_of_mem _ hq)

theorem childInsert_decomp (p : String) (c'' : Module) :
    ∀ ch : List (String × Module),
      ch.Pairwise (fun a b : String × Module => a.1 < b.1) →
      (childLookup ch p = none
          ∧ ∃ l₁ l₂, ch = l₁ ++ l₂ ∧ childInsert p c'' ch = l₁ ++ (p, c'') :: l₂)
      ∨ (∃ l₁ c l₂, ch = l₁ ++ (p, c) :: l₂ ∧ childLookup ch p = some c
          ∧ childInsert p c'' ch = l₁ ++ (p, c'') :: l₂) := by
  intro ch
  induction ch with
  | nil => intro _; exact Or.inl ⟨rfl, [], [], rfl, rfl⟩
  | cons kc rest ih =>
    obtain ⟨ak, ac⟩ := kc
    intro hp
    rw [List.pairwise_cons] at hp
    obtain ⟨ha, hrest⟩ := hp
    rcases lt_trichotomy p ak with h1 | h1 | h1
    · refine Or.inl ⟨?_, [], (ak, ac) :: rest, rfl, ?_⟩
      · rw [childLookup, if_neg (ne_of_gt h1)]
        refine childLookup_eq_none p rest ?_
        intro q hq
        exact ne_of_gt (lt_trans h1 (ha q hq))
      · rw [childInsert, if_pos h1, List.nil_append]
    · subst h1
      refine Or.inr ⟨[], ac, rest, rfl, ?_, ?_⟩
      · rw [childLookup, if_pos rfl]
      · rw [childInsert, if_neg (lt_irrefl p), if_pos rfl, List.nil_append]
    · have hne : p ≠ ak := ne_of_gt h1
      have hlt : ¬ p < ak := not_lt.mpr (le_of_lt h1)
      rcases ih hrest with ⟨hnone, l₁, l₂, hch, hins⟩ | ⟨l₁, c, l₂, hch, hlook, hins⟩
      · refine Or.inl ⟨?_, (ak, ac) :: l₁, l₂, ?_, ?_⟩
        · rw [childLookup, if_neg (Ne.symm hne), hnone]
        · rw [List.cons_append, hch]
        · rw [childInsert, if_neg hlt, if_neg hne, hins, List.cons_append]
      · refine Or.inr ⟨(ak, ac) :: l₁, c, l₂, ?_, ?_, ?_⟩
        · rw [List.cons_append, hch]
        · rw [childLookup, if_neg (Ne.symm hne), hlook]
        · rw [childInsert, if_neg hlt, if_neg hne, hins, List.cons_append]

theorem count_insertParts (pg last : String) :
    ∀ (init : List String) (m : Module) (path : List String), m.sortedKeys = true →
      (leafQualsGo (insertParts last init m) path).count pg
        = (leafQualsGo m path).count pg
          + (if pg = qualJoin (path ++ init.filter (fun s => s != "") ++ [last]) then 1 else 0) := by
  intro init
  induction init with
  | nil =>
    intro m path hm
    obtain ⟨n, ch, ids⟩ := m
    simp only [insertParts, Module.name, Module.children, Module.identifiers,
      leafQualsGo_mk, List.map_append, List.map_cons, List.map_nil, List.count_append,
      List.filter_nil, List.nil_append, List.append_nil]
    rw [List.count_cons, List.count_nil]
    by_cases h : pg = qualJoin (path ++ [last])
    · simp only [h, if_pos rfl, beq_self_eq_true, if_true]
      omega
    · simp only [if_neg h]
      rw [if_neg (by simp only [beq_iff_eq]; exact fun hh => h hh.symm)]
      omega
  | cons p0 rest ih =>
    intro m path hm
    obtain ⟨n, ch, ids⟩ := m
    by_cases hp : p0 = ""
    · rw [insertParts, if_pos hp, ih _ path hm, hp]
      simp [List.filter_cons]
    · have hm' := hm
      rw [sortedKeys_mk, Bool.and_eq_true] at hm'
      obtain ⟨hchain, hall⟩ := hm'
      have hpw := (keysChain_iff_pairwise ch).mp hchain
      simp only [insertParts, if_neg hp, Module.name, Module.children, Module.identifiers]
      have hfilter : (p0 :: rest).filter (fun s => s != "") = p0 :: rest.filter (fun s => s != "") := by
        simp [List.filter_cons, hp]
      have harg : (path ++ [p0]) ++ rest.filter (fun s => s != "") ++ [last]
          = path ++ ((p0 :: rest).filter (fun s => s != "")) ++ [last] := by
        rw [hfilter]
        simp [List.append_assoc]
      cases hlk : childLookup ch p0 with
      | none =>
        rw [Option.getD_none]
        rcases childInsert_decomp p0 (insertParts last rest (Module.new p0)) ch hpw with
          ⟨hnone, l₁, l₂, hch, hins⟩ | ⟨l₁, c, l₂, hch, hlook, hins⟩
        · rw [hins, leafQualsGo_mk, leafQualsGo_mk, hch]
          rw [leafQualsChildren_append, leafQualsChildren_append, leafQualsChildren_cons]
          have hrec := ih (Module.new p0) (path ++ [p0]) (new_sortedKeys p0)
          have hnew : leafQualsGo (Module.new p0) (path ++ [p0]) = [] := rfl
          rw [hnew, List.count_nil, harg] at hrec
          simp only [List.count_append]
          rw [hrec]
          omega
        · rw [hlk] at hlook
          simp at hlook
      | some c0 =>
        rw [Option.getD_some]
        rcases childInsert_decomp p0 (insertParts last rest c0) ch hpw with
          ⟨hnone, l₁, l₂, hch, hins⟩ | ⟨l₁, c, l₂, hch, hlook, hins⟩
        · rw [hlk] at hnone
          simp at hnone
        · rw [hlk] at hlook
          rw [Option.some.injEq] at hlook
          subst hlook
          rw [hins, leafQualsGo_mk, leafQualsGo_mk, hch]
          rw [leafQualsChildren_append, leafQualsChildren_append, leafQualsChildren_cons,
            leafQualsChildren_cons]
          have hcs : c0.sortedKeys = true := by
            refine (childrenAllSorted_iff ch).mp hall (p0, c0) ?_
            rw [hch]
            exact List.mem_append_right _ (List.mem_cons_self _ _)
          have hrec := ih c0 (path ++ [p0]) hcs
          rw [harg] at hrec
          simp only [List.count_append]
          rw [hrec]
          omega

theorem count_foldl_insertIdent (pg : String) :
    ∀ (ids : List String) (m : Module), m.sortedKeys = true →
      (leafQualsGo (ids.foldl insertIdent m) []).count pg
        = (leafQualsGo m []).count pg + ids.countP (fun n => pg == reconName n) := by
  intro ids
  induction ids with
  | nil => intro m hm; simp
  | cons n rest ih =>
    intro m hm
    rw [List.foldl_cons, ih _ (insertIdent_sortedKeys m n hm), List.countP_cons]
    rw [insertIdent, count_insertParts pg _ _ m [] hm, List.nil_append]
    have : (pg == reconName n) = true ↔ pg = reconName n := beq_iff_eq
    rw [reconName]
    split <;> split <;> simp_all <;> omega

theorem count_group_identifiers (pg root : String) (names : List String) :
    (leafQualNames (Module.group_identifiers root names)).count pg
      = names.countP (fun n => pg == reconName n) := by
  rw [leafQualNames, Module.group_identifiers,
    count_foldl_insertIdent pg names (Module.new root) (new_sortedKeys root)]
  rw [show leafQualsGo (Module.new root) [] = [] from rfl, List.count_nil, Nat.zero_add]

theorem reconName_eq_self (n : String) (h : ¬ [] ∈ splitColons n.data) : reconName n = n := by
  obtain ⟨init, lastl, hcps⟩ : ∃ l a, splitColons n.data = l ++ [a] := by
    rcases (splitColons n.data).eq_nil_or_concat with h0 | ⟨L, b, h0⟩
    · exact absurd h0 (splitColons_ne_nil n.data)
    · exact ⟨L, b, by rw [h0, List.concat_eq_append]⟩
  have hinit : ∀ l ∈ init, l ≠ [] := by
    intro l hl hln
    exact h (by rw [hcps]; exact List.mem_append_left _ (hln ▸ hl))
  rw [reconName, splitIdent, hcps, List.map_append, List.map_cons, List.map_nil]
  rw [List.dropLast_concat, List.getLastD_concat]
  have hfl : (init.map (fun l => (⟨l⟩ : String))).filter (fun s => s != "") = init.map (fun l => (⟨l⟩ : String)) := by
    rw [List.filter_eq_self]
    intro a ha
    rcases List.mem_map.mp ha with ⟨l, hl, rfl⟩
    have : l ≠ [] := hinit l hl
    simpa [bne_iff_ne, String.ext_iff] using this
  rw [hfl, qualJoin]
  have hmap : ((init.map (fun l => (⟨l⟩ : String))) ++ [(⟨lastl⟩ : String)]).map String.data
      = init ++ [lastl] := by
    rw [List.map_append, List.map_map, List.map_cons, List.map_nil]
    congr 1
    have : (String.data ∘ fun l => (⟨l⟩ : String)) = id := funext fun l => rfl
    rw [this, List.map_id]
  rw [hmap, ← hcps, joinColons_splitColons]

/-- C4 counterexample: with the duplicate qualified-name sequence
`["a", "a"]` the resulting tree has a leaf whose reconstruction matches
two retained packets' qualified names, not exactly one. -/
theorem duplicate_names_break_reconstruction :
    ¬ ∀ p ∈ leafQualNames (Module.group_identifiers "packets" ["a", "a"]),
        (["a", "a"] : List String).count p = 1 := by decide

/-- C4 (amended): for every ordered sequence of pairwise-distinct
qualified names none of which contains an empty segment, the namespace
builder walks the non-last segments fetching-or-creating children
idempotently (every node's children are strictly key-sorted, hence
duplicate-free — see the sortedness conjunct), empty segments are
skipped, the last segment is appended to the reached node's leaf list,
and every leaf identifier concatenated with its ancestor path
reconstructs exactly one retained packet's qualified name.  Without the
distinctness hypothesis the final conjunct fails (see the
counterexample). -/
theorem group_identifiers_reconstruction (root : String) (names : List String)
    (h1 : names.Nodup) (h2 : ∀ n ∈ names, ¬ [] ∈ splitColons n.data) :
    (Module.group_identifiers root names).sortedKeys = true
    ∧ ∀ p ∈ leafQualNames (Module.group_identifiers root names), names.count p = 1 := by
  refine ⟨group_identifiers_sortedKeys root names, ?_⟩
  intro p hp
  have hbeq : ∀ a b : String, (a == b) = (b == a) := by
    intro a b
    by_cases h : a = b
    · rw [h]
    · have h' : ¬ b = a := fun hh => h hh.symm
      simp [h, h']
  have hcnt : (leafQualNames (Module.group_identifiers root names)).count p
      = names.countP (fun n => p == reconName n) := count_group_identifiers p root names
  have hcp : names.countP (fun n => p == reconName n) = names.count p := by
    rw [List.count]
    refine List.countP_congr ?_
    intro n hn
    rw [reconName_eq_self n (h2 n hn), hbeq]
  have hpos : 0 < (leafQualNames (Module.group_identifiers root names)).count p :=
    List.count_pos_iff.mpr hp
  have hle : names.count p ≤ 1 := List.nodup_iff_count_le_one.mp h1 p
  omega

/-- Witness for C4 (amended) at a concrete distinct, empty-segment-free
name sequence: the leaf reconstruction of the nested name matches exactly
one input name. -/
theorem group_identifiers_reconstruction_witness :
    (Module.group_identifiers "packets" ["a", "b::c"]).sortedKeys = true
    ∧ (["a", "b::c"] : List String).count "b::c" = 1 := by
  have h := group_identifiers_reconstruction "packets" ["a", "b::c"] (by decide) (by decide)
  exact ⟨h.1, h.2 "b::c" (by decide)⟩

/-! ### Behaviour of the emitter's qualified-name lookup (claims C3, C7, C9) -/

theorem leafDotsGo_mk (n : String) (ch : List (String × Module)) (ids : List String)
    (path : List String) :
    leafDotsGo (.mk n ch ids) path
      = leafDotsChildren ch path ++ ids.map (fun i => pathName path i) := rfl

theorem leafDotsChildren_cons (k : String) (c : Module) (rest : List (String × Module))
    (path : List String) :
    leafDotsChildren ((k, c) :: rest) path
      = leafDotsGo c (path ++ [c.name]) ++ leafDotsChildren rest path := rfl

theorem emitLeaf_isSome_of (defs : List (Int × PacketDefinition)) (path : List String)
    (identifier : String) (depth : Nat)
    (h : (findDef defs (pathName path identifier)).isSome = true) :
    (emitLeaf defs path identifier depth).isSome = true := by
  rw [emitLeaf]
  cases hf : findDef defs (pathName path identifier) with
  | none => rw [hf] at h; simp at h
  | some idd =>
    by_cases hn : idd.2.name = none
    · simp [hn]
    · simp [hn]

theorem fmtLeaves_eq_none_of (defs : List (Int × PacketDefinition)) :
    ∀ (idents : List String) (path : List String) (depth : Nat),
      (∃ i ∈ idents, findDef defs (pathName path i) = none) →
      fmtLeaves defs idents path depth = none := by
  intro idents
  induction idents with
  | nil => rintro path depth ⟨i, hi, _⟩; simp at hi
  | cons i0 rest ih =>
    rintro path depth ⟨i, hi, hnone⟩
    rcases List.mem_cons.mp hi with h | h
    · subst h
      rw [fmtLeaves]
      have : emitLeaf defs path i depth = none := by
        rw [emitLeaf, hnone]
      rw [this]
    · rw [fmtLeaves]
      cases he : emitLeaf defs path i0 depth with
      | none => rfl
      | some s => rw [ih path depth ⟨i, h, hnone⟩]

theorem fmtLeaves_isSome_of (defs : List (Int × PacketDefinition)) :
    ∀ (idents : List String) (path : List String) (depth : Nat),
      (∀ i ∈ idents, (findDef defs (pathName path i)).isSome = true) →
      (fmtLeaves defs idents path depth).isSome = true := by
  intro idents
  induction idents with
  | nil => intro path depth _; rw [fmtLeaves]; rfl
  | cons i0 rest ih =>
    intro path depth h
    rw [fmtLeaves]
    have h0 := emitLeaf_isSome_of defs path i0 depth (h i0 (List.mem_cons_self _ _))
    cases he : emitLeaf defs path i0 depth with
    | none => rw [he] at h0; simp at h0
    | some s =>
      have hr := ih path depth (fun i hi => h i (List.mem_cons_of_mem _ hi))
      cases hrest : fmtLeaves defs rest path depth with
      | none => rw [hrest] at hr; simp at hr
      | some r => rfl

mutual

theorem fmtGo_eq_none_of (defs : List (Int × PacketDefinition)) :
    ∀ (m : Module) (depth : Nat) (path : List String),
      (∃ q ∈ leafDotsGo m path, findDef defs q = none) → fmtGo defs m depth path = none
  | .mk nm children idents, depth, path => by
    rintro ⟨q, hq, hnone⟩
    rw [leafDotsGo_mk] at hq
    rw [fmtGo]
    rcases List.mem_append.mp hq with h | h
    · rw [fmtChildren_eq_none_of defs children depth path ⟨q, h, hnone⟩]
    · rcases List.mem_map.mp h with ⟨i, hi, rfl⟩
      cases hc : fmtChildren defs children depth path with
      | none => rfl
      | some cs => rw [fmtLeaves_eq_none_of defs idents path depth ⟨i, hi, hnone⟩]

theorem fmtChildren_eq_none_of (defs : List (Int × PacketDefinition)) :
    ∀ (ch : List (String × Module)) (depth : Nat) (path : List String),
      (∃ q ∈ leafDotsChildren ch path, findDef defs q = none) →
      fmtChildren defs ch depth path = none
  | [], _, path => by rintro ⟨q, hq, _⟩; simp [leafDotsChildren] at hq
  | (k, c) :: rest, depth, path => by
    rintro ⟨q, hq, hnone⟩
    rw [leafDotsChildren_cons] at hq
    rw [fmtChildren]
    rcases List.mem_append.mp hq with h | h
    · rw [fmtGo_eq_none_of defs c (depth + 1) (path ++ [c.name]) ⟨q, h, hnone⟩]
    · cases hg : fmtGo defs c (depth + 1) (path ++ [c.name]) with
      | none => rfl
      | some s => rw [fmtChildren_eq_none_of defs rest depth path ⟨q, h, hnone⟩]

end

mutual

theorem fmtGo_isSome_of (defs : List (Int × PacketDefinition)) :
    ∀ (m : Module) (depth : Nat) (path : List String),
      (∀ q ∈ leafDotsGo m path, (findDef defs q).isSome = true) →
      (fmtGo defs m depth path).isSome = true
  | .mk nm children idents, depth, path => by
    intro h
    rw [fmtGo]
    have hch := fmtChildren_isSome_of defs children depth path
      (fun q hq => h q (by rw [leafDotsGo_mk]; exact List.mem_append_left _ hq))
    cases hc : fmtChildren defs children depth path with
    | none => rw [hc] at hch; simp at hch
    | some cs =>
      have hls := fmtLeaves_isSome_of defs idents path depth
        (fun i hi => h (pathName path i)
          (by rw [leafDotsGo_mk]; exact List.mem_append_right _ (List.mem_map_of_mem _ hi)))
      cases hl : fmtLeaves defs idents path depth with
      | none => rw [hl] at hls; simp at hls
      | some ls => rfl

theorem fmtChildren_isSome_of (defs : List (Int × PacketDefinition)) :
    ∀ (ch : List (String × Module)) (depth : Nat) (path : List String),
      (∀ q ∈ leafDotsChildren ch path, (findDef defs q).isSome = true) →
      (fmtChildren defs ch depth path).isSome = true
  | [], _, path => by intro _; rw [fmtChildren]; rfl
  | (k, c) :: rest, depth, path => by
    intro h
    rw [fmtChildren]
    have hg := fmtGo_isSome_of defs c (depth + 1) (path ++ [c.name])
      (fun q hq => h q (by rw [leafDotsChildren_cons]; exact List.mem_append_left _ hq))
    cases hgo : fmtGo defs c (depth + 1) (path ++ [c.name]) with
    | none => rw [hgo] at hg; simp at hg
    | some s =>
      have hr := fmtChildren_isSome_of defs rest depth path
        (fun q hq => h q (by rw [leafDotsChildren_cons]; exact List.mem_append_right _ hq))
      cases hrest : fmtChildren defs rest depth path with
      | none => rw [hrest] at hr; simp at hr
      | some r => rfl

end

theorem emitLeaf_congr (defs1 defs2 : List (Int × PacketDefinition))
    (h : ∀ q, findDef defs1 q = findDef defs2 q) (path : List String)
    (identifier : String) (depth : Nat) :
    emitLeaf defs1 path identifier depth = emitLeaf defs2 path identifier depth := by
  rw [emitLeaf, emitLeaf, h]

theorem fmtLeaves_congr (defs1 defs2 : List (Int × PacketDefinition))
    (h : ∀ q, findDef defs1 q = findDef defs2 q) :
    ∀ (idents : List String) (path : List String) (depth : Nat),
      fmtLeaves defs1 idents path depth = fmtLeaves defs2 idents path depth := by
  intro idents
  induction idents with
  | nil => intro path depth; rfl
  | cons i0 rest ih =>
    intro path depth
    rw [fmtLeaves, fmtLeaves, emitLeaf_congr defs1 defs2 h path i0 depth, ih path depth]

mutual

theorem fmtGo_congr (defs1 defs2 : List (Int × PacketDefinition))
    (h : ∀ q, findDef defs1 q = findDef defs2 q) :
    ∀ (m : Module) (depth : Nat) (path : List String),
      fmtGo defs1 m depth path = fmtGo defs2 m depth path
  | .mk nm children idents, depth, path => by
    rw [fmtGo, fmtGo, fmtChildren_congr defs1 defs2 h children depth path,
      fmtLeaves_congr defs1 defs2 h idents path depth]

theorem fmtChildren_congr (defs1 defs2 : List (Int × PacketDefinition))
    (h : ∀ q, findDef defs1 q = findDef defs2 q) :
    ∀ (ch : List (String × Module)) (depth : Nat) (path : List String),
      fmtChildren defs1 ch depth path = fmtChildren defs2 ch depth path
  | [], _, _ => rfl
  | (k, c) :: rest, depth, path => by
    rw [fmtChildren, fmtChildren, fmtGo_congr defs1 defs2 h c (depth + 1) (path ++ [c.name]),
      fmtChildren_congr defs1 defs2 h rest depth path]

end

/-! ### Claim theorems for the emitter and the registration procedure -/

/-- C3 counterexample: with two retained definitions both named `a`, the
emission lookup for the leaf `a` matches two definitions, yet generation
does not abort — it produces output. -/
theorem duplicate_name_no_abort :
    ((retainDefs (resolveAll [] defsDup).1 (resolveAll [] defsDup).2.1).countP
        (fun p => p.2.name == some (pathName [] "a")) = 2)
    ∧ (generate [] defsDup).isSome = true :=
  ⟨by decide, by decide⟩

/-- C3 (amended): if some leaf's reconstructed qualified name matches no
definition, emission fails (the `unwrap` panics — the whole run aborts
with no output); but when every leaf's name has at least one match —
including ambiguous names with several matches — emission succeeds, using
the first match.  A lookup matching more than one definition does not
abort. -/
theorem emission_lookup_failure_behavior (defs : List (Int × PacketDefinition))
    (m : Module) (depth : Nat) (path : List String) :
    ((∃ q ∈ leafDotsGo m path, findDef defs q = none) → fmtGo defs m depth path = none)
    ∧ ((∀ q ∈ leafDotsGo m path, (findDef defs q).isSome = true) →
        (fmtGo defs m depth path).isSome = true) :=
  ⟨fmtGo_eq_none_of defs m depth path, fmtGo_isSome_of defs m depth path⟩

/-- Witness for C3 (amended): a leaf whose name matches no definition
makes the emitter fail. -/
theorem emission_lookup_failure_behavior_witness :
    fmtGo [] (Module.mk "packets" [] ["a"]) 0 [] = none :=
  (emission_lookup_failure_behavior [] (Module.mk "packets" [] ["a"]) 0 []).1
    ⟨"a", by decide, by decide⟩

theorem regLines_go :
    ∀ (defs : List (Int × PacketDefinition)) (acc : List String),
      defs.foldl regStep acc
        = acc ++ (defs.filterMap (fun p => p.2.name)).map regStatement := by
  intro defs
  induction defs with
  | nil => intro acc; simp
  | cons p rest ih =>
    intro acc
    rw [List.foldl_cons]
    cases hn : p.2.name with
    | none =>
      simp only [regStep, hn]
      rw [ih]
      simp [List.filterMap_cons, hn]
    | some n =>
      simp only [regStep, hn]
      rw [ih]
      simp [List.filterMap_cons, hn, List.append_assoc]

theorem regLines_eq (defs : List (Int × PacketDefinition)) :
    regLines defs = (defs.filterMap (fun p => p.2.name)).map regStatement := by
  rw [regLines, regLines_go]
  rfl

theorem filterMap_name_filter (defs : List (Int × PacketDefinition)) :
    (defs.filter (fun p => p.2.name.isSome)).filterMap (fun p => p.2.name)
      = defs.filterMap (fun p => p.2.name) := by
  induction defs with
  | nil => rfl
  | cons p rest ih =>
    cases hn : p.2.name with
    | none => simp [List.filter_cons, List.filterMap_cons, hn, ih]
    | some n => simp [List.filter_cons, List.filterMap_cons, hn, ih]

theorem findDef_some (defs : List (Int × PacketDefinition)) (q : String)
    (x : Int × PacketDefinition) : findDef defs q = some x → x.2.name = some q := by
  induction defs with
  | nil => intro h; simp [findDef] at h
  | cons p rest ih =>
    intro h
    rw [findDef] at h
    by_cases hp : p.2.name = some q
    · rw [if_pos hp, Option.some.injEq] at h
      rw [← h]
      exact hp
    · rw [if_neg hp] at h
      exact ih h

theorem findDef_filter_named (defs : List (Int × PacketDefinition)) (q : String) :
    findDef (defs.filter (fun p => p.2.name.isSome)) q = findDef defs q := by
  induction defs with
  | nil => rfl
  | cons p rest ih =>
    cases hn : p.2.name with
    | none =>
      have hpred : ¬ p.2.name = some q := by rw [hn]; exact fun h => Option.noConfusion h
      have hiss : (p.2.name.isSome : Bool) = false := by rw [hn]; rfl
      rw [List.filter_cons, hiss]
      simp only [Bool.false_eq_true, if_false]
      rw [ih, findDef, if_neg hpred]
    | some n =>
      have hiss : (p.2.name.isSome : Bool) = true := by rw [hn]; rfl
      rw [List.filter_cons, hiss]
      simp only [if_true]
      by_cases hq : p.2.name = some q
      · rw [findDef, if_pos hq, findDef, if_pos hq]
      · rw [findDef, if_neg hq, findDef, if_neg hq]
        exact ih

/-- C7 (amended): a definition with no name contributes nothing at all to
the generated text: the emitter's output is unchanged when nameless
definitions are removed from the table, the registration statements are
unchanged as well, and the emitter's comment-placeholder branch is
unreachable because a successful lookup always yields a named definition
(so no placeholder is ever emitted). -/
theorem nameless_contribute_nothing (defs : List (Int × PacketDefinition))
    (m : Module) (depth : Nat) (path : List String) :
    fmtGo defs m depth path = fmtGo (defs.filter (fun p => p.2.name.isSome)) m depth path
    ∧ regLines defs = regLines (defs.filter (fun p => p.2.name.isSome))
    ∧ (∀ q x, findDef defs q = some x → x.2.name.isSome = true) := by
  refine ⟨?_, ?_, ?_⟩
  · exact fmtGo_congr defs _ (fun q => (findDef_filter_named defs q).symm) m depth path
  · rw [regLines_eq, regLines_eq, filterMap_name_filter]
  · intro q x hf
    rw [findDef_some defs q x hf]
    rfl

/-- Witness for C7 (amended): removing the nameless definition of
`defsC7` does not change the emitter's output. -/
theorem nameless_contribute_nothing_witness :
    fmtGo defsC7 (Module.mk "packets" [] []) 0 []
      = fmtGo (defsC7.filter (fun p => p.2.name.isSome)) (Module.mk "packets" [] []) 0 [] :=
  (nameless_contribute_nothing defsC7 (Module.mk "packets" [] []) 0 []).1

/-- C7 counterexample: on an input whose only definition is nameless,
generation succeeds but its output contains no placeholder comment — the
claimed comment-only placeholder for nameless definitions is never
emitted (the branch writing it is unreachable and its buffer is
discarded). -/
theorem nameless_placeholder_absent :
    (generate [] defsC7).isSome = true
    ∧ ¬ ("No name defined".data <:+: ((generate [] defsC7).getD "").data) :=
  ⟨by decide, by decide⟩

theorem findDef_min (defs : List (Int × PacketDefinition)) (q : String)
    (hs : (defs.map (fun p => p.1)).Sorted (· < ·))
    (i : Int) (d : PacketDefinition) (hmem : (i, d) ∈ defs) (hname : d.name = some q) :
    ∃ j e, findDef defs q = some (j, e) ∧ e.name = some q ∧ j ≤ i
      ∧ ∀ p ∈ defs, p.2.name = some q → j ≤ p.1 := by
  induction defs with
  | nil => cases hmem
  | cons hd rest ih =>
    obtain ⟨k, e0⟩ := hd
    rw [List.map_cons, List.sorted_cons] at hs
    obtain ⟨hbound, hrest⟩ := hs
    by_cases hpred : e0.name = some q
    · refine ⟨k, e0, ?_, hpred, ?_, ?_⟩
      · rw [findDef, if_pos hpred]
      · rcases List.mem_cons.mp hmem with h | h
        · rw [Prod.mk.injEq] at h
          exact le_of_eq h.1.symm
        · exact le_of_lt (hbound i (List.mem_map.mpr ⟨(i, d), h, rfl⟩))
      · intro p hp hpn
        rcases List.mem_cons.mp hp with h | h
        · rw [h]
        · exact le_of_lt (hbound p.1 (List.mem_map.mpr ⟨p, h, rfl⟩))
    · have hmem' : (i, d) ∈ rest := by
        rcases List.mem_cons.mp hmem with h | h
        · exfalso
          rw [Prod.mk.injEq] at h
          exact hpred (h.2 ▸ hname)
        · exact h
      obtain ⟨j, e, hfind, hename, hji, hmin⟩ := ih hrest hmem'
      refine ⟨j, e, ?_, hename, hji, ?_⟩
      · rw [findDef, if_neg hpred]
        exact hfind
      · intro p hp hpn
        rcases List.mem_cons.mp hp with h | h
        · exfalso
          exact hpred (by rw [h] at hpn; exact hpn)
        · exact hmin p h hpn

/-- C9: when the reconstructed qualified name of a leaf matches at least
one retained definition — in particular when it matches several — the
emitter does not fail: the lookup returns the matching definition with
the smallest packet id (the first in ascending-id iteration order), and
the leaf's emitted text is that definition's comment, struct, codec and
metadata block. -/
theorem ambiguous_lookup_first_match (defs : List (Int × PacketDefinition))
    (hs : (defs.map (fun p => p.1)).Sorted (· < ·))
    (path : List String) (identifier : String) (i : Int) (d : PacketDefinition)
    (hmem : (i, d) ∈ defs) (hname : d.name = some (pathName path identifier)) (depth : Nat) :
    ∃ j e, findDef defs (pathName path identifier) = some (j, e)
      ∧ e.name = some (pathName path identifier) ∧ j ≤ i
      ∧ (∀ p ∈ defs, p.2.name = some (pathName path identifier) → j ≤ p.1)
      ∧ emitLeaf defs path identifier depth
          = some (indent (packetBlock j identifier e (pathName path identifier)) (depth + 1)) := by
  obtain ⟨j, e, hf, hn, hji, hmin⟩ := findDef_min defs _ hs i d hmem hname
  refine ⟨j, e, hf, hn, hji, hmin, ?_⟩
  rw [emitLeaf, hf]
  show (if (j, e).2.name = none then some ""
    else some (indent (packetBlock (j, e).1 identifier (j, e).2 (pathName path identifier)) (depth + 1)))
      = some (indent (packetBlock j identifier e (pathName path identifier)) (depth + 1))
  rw [if_neg (by rw [hn]; exact fun h => Option.noConfusion h)]

/-- Witness for C9 at the concrete ambiguous input `defsDup`: the leaf
`a` matches both definitions, and the emitter succeeds. -/
theorem ambiguous_lookup_first_match_witness :
    emitLeaf defsDup [] "a" 0 ≠ none := by
  obtain ⟨j, e, hf, hn, hji, hmin, hemit⟩ :=
    ambiguous_lookup_first_match defsDup (by decide) [] "a" 2
      { name := some "a", model := 0, fields := [] } (by decide) (by decide) 0
  rw [hemit]
  exact Option.some_ne_none _

/-! ### The packet filter (claim C5) and the registration procedure (claim C6) -/

theorem resolveAll_ids (codecs : List (String × String)) (defs : List (Int × PacketDefinition)) :
    ((resolveAll codecs defs).1).map (fun p => p.1) = defs.map (fun p => p.1) := by
  simpa using resolveAll_go_ids codecs defs ([], [], [])

/-- C5: the packet filter retains exactly the resolved definitions whose
id is not in the skip set, preserving ascending id order; the retained
list is no longer than the input; and every id present in the input but
missing from the retained output has at least one field whose codec alias
is absent from the codec table. -/
theorem packet_filter_correct (codecs : List (String × String))
    (defs : List (Int × PacketDefinition))
    (h : (defs.map (fun p => p.1)).Sorted (· < ·)) :
    ((retainDefs (resolveAll codecs defs).1 (resolveAll codecs defs).2.1).map
        (fun p => p.1)).Sorted (· < ·)
    ∧ (retainDefs (resolveAll codecs defs).1 (resolveAll codecs defs).2.1).length ≤ defs.length
    ∧ (∀ p, p ∈ retainDefs (resolveAll codecs defs).1 (resolveAll codecs defs).2.1
        ↔ p ∈ (resolveAll codecs defs).1 ∧ p.1 ∉ (resolveAll codecs defs).2.1)
    ∧ (∀ id, id ∈ defs.map (fun p => p.1) →
        id ∉ (retainDefs (resolveAll codecs defs).1 (resolveAll codecs defs).2.1).map
          (fun p => p.1) →
        ∃ d nc, (id, d) ∈ defs ∧ nc ∈ d.fields ∧ alookup codecs nc.2 = none) := by
  have hmemchar : ∀ p, p ∈ retainDefs (resolveAll codecs defs).1 (resolveAll codecs defs).2.1
      ↔ p ∈ (resolveAll codecs defs).1 ∧ p.1 ∉ (resolveAll codecs defs).2.1 := by
    intro p
    rw [retainDefs, List.mem_filter]
    simp
  refine ⟨?_, ?_, hmemchar, ?_⟩
  · have hsub : List.Sublist
        ((retainDefs (resolveAll codecs defs).1 (resolveAll codecs defs).2.1).map (fun p => p.1))
        (((resolveAll codecs defs).1).map (fun p => p.1)) :=
      (List.filter_sublist _).map _
    rw [resolveAll_ids] at hsub
    exact h.sublist hsub
  · have hlen : (retainDefs (resolveAll codecs defs).1 (resolveAll codecs defs).2.1).length
        ≤ ((resolveAll codecs defs).1).length := List.length_filter_le _ _
    have heq : ((resolveAll codecs defs).1).length = defs.length := by
      have := congrArg List.length (resolveAll_ids codecs defs)
      simpa using this
    omega
  · intro id hin hout
    have hinr : id ∈ ((resolveAll codecs defs).1).map (fun p => p.1) := by
      rw [resolveAll_ids]
      exact hin
    rcases List.mem_map.mp hinr with ⟨p, hp, rfl⟩
    have hskip : p.1 ∈ (resolveAll codecs defs).2.1 := by
      by_contra hns
      exact hout (List.mem_map.mpr ⟨p, (hmemchar p).mpr ⟨hp, hns⟩, rfl⟩)
    have := (resolver_skips_and_diagnoses codecs defs).2.2.1 p.1
    rcases this.mp hskip with ⟨d, hd, nc, hnc, hnone⟩
    exact ⟨d, nc, hd, hnc, hnone⟩

/-- Witness for C5 at a concrete input (one resolvable packet, one with
an unknown alias): the filter's output is not longer than its input. -/
theorem packet_filter_correct_witness :
    (retainDefs (resolveAll [("i32", "i32")] defsC5).1
        (resolveAll [("i32", "i32")] defsC5).2.1).length ≤ defsC5.length :=
  (packet_filter_correct [("i32", "i32")] defsC5 (by decide)).2.1

theorem namedEntries_snd (defs : List (Int × PacketDefinition)) :
    (namedEntries defs).map (fun q => q.2) = defs.filterMap (fun p => p.2.name) := by
  induction defs with
  | nil => rfl
  | cons p rest ih =>
    cases hn : p.2.name with
    | none =>
      simp only [namedEntries, List.filterMap_cons, hn, Option.map_none'] at ih ⊢
      exact ih
    | some n =>
      simp only [namedEntries, List.filterMap_cons, hn, Option.map_some'] at ih ⊢
      simp [ih]

theorem namedEntries_fst_sublist (defs : List (Int × PacketDefinition)) :
    List.Sublist ((namedEntries defs).map (fun q => q.1)) (defs.map (fun p => p.1)) := by
  induction defs with
  | nil => exact List.Sublist.refl _
  | cons p rest ih =>
    cases hn : p.2.name with
    | none =>
      simp only [namedEntries, List.filterMap_cons, hn, List.map_cons]
      exact (by simpa [namedEntries] using ih : List.Sublist _ _).cons _
    | some n =>
      simp only [namedEntries, List.filterMap_cons, hn, List.map_cons]
      exact (by simpa [namedEntries] using ih : List.Sublist _ _).cons₂ _

theorem filterMap_name_length (defs : List (Int × PacketDefinition)) :
    (defs.filterMap (fun p => p.2.name)).length = defs.countP (fun p => p.2.name.isSome) := by
  induction defs with
  | nil => rfl
  | cons p rest ih =>
    cases hn : p.2.name with
    | none => simp [List.filterMap_cons, List.countP_cons, hn, ih]
    | some n => simp [List.filterMap_cons, List.countP_cons, hn, ih]

/-- C6: the emitted registration statements are exactly one per retained
definition that has a name, in iteration order — so with the retained
table in ascending id order they appear in ascending packet id order —
none for nameless definitions, none repeated (the statement list is the
image of the named-definition list), and their number equals the number
of named retained definitions. -/
theorem registration_exactly_named (defs : List (Int × PacketDefinition))
    (h : (defs.map (fun p => p.1)).Sorted (· < ·)) :
    regLines defs = (namedEntries defs).map (fun q => regStatement q.2)
    ∧ ((namedEntries defs).map (fun q => q.1)).Sorted (· < ·)
    ∧ (regLines defs).length = defs.countP (fun p => p.2.name.isSome) := by
  refine ⟨?_, ?_, ?_⟩
  · rw [regLines_eq, ← namedEntries_snd, List.map_map]
    rfl
  · exact h.sublist (namedEntries_fst_sublist defs)
  · rw [regLines_eq, List.length_map, filterMap_name_length]

/-- Witness for C6 at a concrete input with a named and a nameless
definition: exactly one registration statement is emitted. -/
theorem registration_exactly_named_witness :
    (regLines defsC6).length = defsC6.countP (fun p => p.2.name.isSome) :=
  (registration_exactly_named defsC6 (by decide)).2.2

end ProtankiBuild
